import Mathlib

/-!
# Verification of the `rnabam2cov` strand-specific coverage pipeline

This file gives a shallow embedding of the `rnabam2cov` Python package
(`src/rnabam2cov/strandedness.py`, `src/rnabam2cov/coverage.py`,
`src/rnabam2cov/cli.py`) and proves the specified properties about it.

The pure control logic (validation order, strand-mapping tables, output-path
construction, keyword-argument building, the per-strand processing loop) is
translated function by function from the Python source.  The interval-coverage
computation itself is delegated by the source to the external
`bedtools genomecov` tool (via `pybedtools`); that accumulation algorithm is
modelled here from the specification's sweep-line description.
-/

namespace Rnabam2cov

/-- Errors surfaced by the pipeline.  Each constructor corresponds to one
distinct `ValueError` / `FileNotFoundError` / `KeyError` message raised by the
Python source; the names follow the specification's error taxonomy. -/
inductive Err where
  | sourceNotFound (path : String)
  | invalidProtocolLabel (label : String)
  | invalidStrandSelector (strand : String)
  | mutuallyExclusiveBgBga
  | missingOutputMode
  | mutuallyExclusiveEndpoints
  | keyError (key : String)
  deriving DecidableEq, Repr

/-- The mapping from aligned strand to a string value (either a transcribed
strand or an output prefix): the Lean rendering of the Python dicts
`{"+": _, "-": _}` returned by `get_strand_mapping` / `get_output_prefixes`.
`plus` is the value bound to key `"+"`, `minus` the value bound to key `"-"`. -/
structure StrandMap where
  plus : String
  minus : String
  deriving DecidableEq, Repr

/-- Dictionary lookup `m[s]` on a two-key strand dict; `none` models a Python
`KeyError` for any key other than `"+"` / `"-"`. -/
def StrandMap.get (m : StrandMap) (s : String) : Option String :=
  if s = "+" then some m.plus
  else if s = "-" then some m.minus
  else none

/-- Python's `str.lower()`: per-character lower-casing of the string. -/
def lowerStr (s : String) : String :=
  ⟨s.data.map Char.toLower⟩

/-- `strandedness.get_strand_mapping`: lower-cases the label, accepts exactly
`"forward"` (identity mapping) and `"reverse"` (inverted mapping), and fails
with the protocol-label error otherwise (the `ValueError` raised by the
`LibraryType` enum constructor). -/
def get_strand_mapping (lib_type : String) : Except Err StrandMap :=
  if lowerStr lib_type = "forward" then .ok ⟨"+", "-"⟩
  else if lowerStr lib_type = "reverse" then .ok ⟨"-", "+"⟩
  else .error (.invalidProtocolLabel lib_type)

/-- `strandedness.get_output_prefixes`: maps each aligned strand to
`base_prefix + ".plus"` when its transcribed strand is `"+"` and to
`base_prefix + ".minus"` otherwise. -/
def get_output_prefixes (basePre : String) (lib_type : String) :
    Except Err StrandMap := do
  let m ← get_strand_mapping lib_type
  pure ⟨if m.plus = "+" then basePre ++ ".plus" else basePre ++ ".minus",
        if m.minus = "+" then basePre ++ ".plus" else basePre ++ ".minus"⟩

/-- `coverage.FileType`: the single supported output file type. -/
inductive FileType where
  | BEDGRAPH
  deriving DecidableEq, Repr

/-- `coverage.get_file_extension`. -/
def get_file_extension : FileType → String
  | .BEDGRAPH => "bedgraph"

/-- The keyword-argument dictionary `get_stranded_bedgraph` assembles for the
`genome_coverage` call.  Boolean fields record whether the corresponding key is
present (it is only ever added with value `True`); `scale`, `max` and
`trackopts` record the key's value when present.  Python truthiness is
mirrored exactly: `scale` is added only when `scale != 1.0`, `max` only when
`max_depth` is truthy (non-`None` and non-zero), `trackopts` only when the
string is non-`None` and non-empty. -/
structure CovKwargs where
  strand : String
  split : Bool
  pc : Bool
  fs : Bool
  du : Bool
  ignoreD : Bool
  scale : Option ℚ
  bg : Bool
  bga : Bool
  max : Option ℤ
  five : Bool
  three : Bool
  trackline : Bool
  trackopts : Option String
  deriving DecidableEq, Repr

/-- The kwargs-building block of `coverage.get_stranded_bedgraph`
(lines 94–124): each optional key is added exactly when its Python argument is
truthy (`if split: ...`, `if max_depth: ...`, etc.), except `scale`, which is
added when `scale != 1.0`. -/
def buildKwargs (strand : String) (split pc fs du ignoreD : Bool) (scale : ℚ)
    (bg bga : Bool) (max_depth : Option ℤ) (five_prime three_prime trackline : Bool)
    (trackopts : Option String) : CovKwargs where
  strand := strand
  split := split
  pc := pc
  fs := fs
  du := du
  ignoreD := ignoreD
  scale := if scale ≠ 1 then some scale else none
  bg := bg
  bga := bga
  max := match max_depth with
    | none => none
    | some m => if m ≠ 0 then some m else none
  five := five_prime
  three := three_prime
  trackline := trackline
  trackopts := match trackopts with
    | none => none
    | some t => if t ≠ "" then some t else none

/-- `coverage.get_stranded_bedgraph`.  The validation checks are performed in
source order (strand selector, bg∧bga conflict, neither-bg-nor-bga, endpoint
conflict); only after all of them pass is the `genome_coverage` invocation
assembled and the output written.  The `.ok` value packages the observable
effect of the call: the BAM path that is read, the kwargs passed to
`genome_coverage`, and the output path written and returned
(`output_prefix + "." + extension`).  An `.error` result is raised before the
`BedTool` object is even constructed, so no span is read and no file is
created. -/
def get_stranded_bedgraph (bam_path strand outputPre : String)
    (split pc fs du ignoreD : Bool) (scale : ℚ) (bg bga : Bool)
    (max_depth : Option ℤ) (five_prime three_prime trackline : Bool)
    (trackopts : Option String) : Except Err (String × CovKwargs × String) :=
  if ¬ (strand = "+" ∨ strand = "-") then .error (.invalidStrandSelector strand)
  else if bg ∧ bga then .error .mutuallyExclusiveBgBga
  else if ¬ bg ∧ ¬ bga then .error .missingOutputMode
  else if five_prime ∧ three_prime then .error .mutuallyExclusiveEndpoints
  else .ok (bam_path,
            buildKwargs strand split pc fs du ignoreD scale bg bga max_depth
              five_prime three_prime trackline trackopts,
            outputPre ++ "." ++ get_file_extension FileType.BEDGRAPH)

/-- The strand-validation loop of `cli.validate_parameters` (lines 59–62):
the first element outside `{"+", "-"}` raises. -/
def checkStrands : List String → Except Err Unit
  | [] => .ok ()
  | s :: rest =>
    if s = "+" ∨ s = "-" then checkStrands rest
    else .error (.invalidStrandSelector s)

/-- `cli.validate_parameters`, in source order: BAM existence (the filesystem
check is abstracted into the `bam_exists` flag), library type (compared
verbatim against the two enum values, no lower-casing here), the strand list,
the bg/bga conflict, the neither-mode check, the endpoint conflict.  The final
file-type check always passes because `FileType` has a single variant. -/
def validate_parameters (bam_exists : Bool) (bam_path libtype : String)
    (strands : List String) (bg bga five_prime three_prime : Bool) :
    Except Err Unit := do
  if ¬ bam_exists then throw (.sourceNotFound bam_path)
  else if ¬ (libtype = "forward" ∨ libtype = "reverse") then
    throw (.invalidProtocolLabel libtype)
  else do
    checkStrands strands
    if bg ∧ bga then throw .mutuallyExclusiveBgBga
    else if ¬ bg ∧ ¬ bga then throw .missingOutputMode
    else if five_prime ∧ three_prime then throw .mutuallyExclusiveEndpoints
    else pure ()

/-- The per-strand processing loop of `cli.rnabam2cov` (lines 147–172).
`f` is the body (resolve the strand's prefix, run coverage, return the
output path).  The first component of the result collects the paths of the
files that were actually produced — on Python's side these are the files
already written to disk — and the second component is the first failure, if
any.  When a strand fails, the loop stops: the recursion never applies `f` to
a later strand, and the paths already accumulated are left untouched. -/
def strandLoop (f : String → Except Err String) : List String → List String × Option Err
  | [] => ([], none)
  | s :: rest =>
    match f s with
    | .error e => ([], some e)
    | .ok path =>
      let r := strandLoop f rest
      (path :: r.1, r.2)

/-- The body of one iteration of `rnabam2cov`'s strand loop: dictionary lookup
of the strand's output prefix (a missing key would be a `KeyError`), then
`get_stranded_coverage`, which for `FileType.BEDGRAPH` simply forwards to
`get_stranded_bedgraph`. -/
def strandStep (prefixes : StrandMap) (bam_path : String)
    (split pc fs du ignoreD : Bool) (scale : ℚ) (bg bga : Bool)
    (max_depth : Option ℤ) (five_prime three_prime trackline : Bool)
    (trackopts : Option String) (strand : String) : Except Err String := do
  let pre ← match prefixes.get strand with
    | some p => Except.ok p
    | none => Except.error (.keyError strand)
  let (_, _, path) ← get_stranded_bedgraph bam_path strand pre split pc fs du
    ignoreD scale bg bga max_depth five_prime three_prime trackline trackopts
  pure path

/-- `cli.rnabam2cov`: validate all parameters, resolve the per-strand output
prefixes from the library type, then process each requested strand in order,
returning the list of produced file paths (same order as `strands`).  A
failure inside the loop propagates as the exception of the first failing
strand; the files produced for earlier strands are not part of the raised
error but remain on disk (see `strandLoop`). -/
def rnabam2cov (bam_exists : Bool) (bam_path libtype outputPre : String)
    (strands : List String) (split pc fs du ignoreD : Bool) (scale : ℚ)
    (bg bga : Bool) (max_depth : Option ℤ)
    (five_prime three_prime trackline : Bool) (trackopts : Option String) :
    Except Err (List String) := do
  validate_parameters bam_exists bam_path libtype strands bg bga five_prime three_prime
  let prefixes ← get_output_prefixes outputPre libtype
  match strandLoop
      (strandStep prefixes bam_path split pc fs du ignoreD scale bg bga
        max_depth five_prime three_prime trackline trackopts) strands with
  | (files, none) => pure files
  | (_, some e) => throw e

/-- The bg/bga resolution in `cli.main` (lines 299–305): if `--bga` was given
then `bg := False, bga := True`, otherwise `bg := True, bga := False`.  The
result is the `(bg, bga)` pair passed to `rnabam2cov`. -/
def mainBgBga (argsBga : Bool) : Bool × Bool :=
  if argsBga then (false, true) else (true, false)

/-! ## The Coverage Accumulator

Modelled from the spec: the interval-coverage computation that
`get_stranded_bedgraph` delegates to the external `bedtools genomecov`
program (the `bt.genome_coverage(**kwargs)` step) is not part of this
repository's source, so it is rendered here from §4.3 of the specification:
a sweep over the coordinate-compressed breakpoints of one chromosome's spans,
producing maximal constant-depth runs, with the depth ceiling coalescing all
positions of depth ≥ ceiling into the ceiling bucket and the zero-inclusion
flag controlling whether zero-depth runs are emitted. -/

/-- Modelled from the spec: a `GenomicSpan` restricted to one chromosome —
half-open interval `[start, stop)` with a coverage weight (normally 1).  The
spec's invariant `start < stop` is carried as a hypothesis where needed. -/
structure Span where
  start : ℕ
  stop : ℕ
  weight : ℕ
  deriving DecidableEq, Repr

/-- Modelled from the spec: a `CoverageRun` on one chromosome — a maximal
half-open interval `[start, stop)` of constant depth. -/
structure Run where
  start : ℕ
  stop : ℕ
  depth : ℕ
  deriving DecidableEq, Repr

/-- Modelled from the spec (glossary): the depth at position `p` is the total
weight of the spans covering `p` (half-open: `start ≤ p < stop`). -/
def depthAt (spans : List Span) (p : ℕ) : ℕ :=
  (spans.map (fun s => if s.start ≤ p ∧ p < s.stop then s.weight else 0)).sum

/-- Insert a coordinate into a strictly sorted coordinate list, keeping it
strictly sorted (duplicates are dropped). -/
def insertBp (x : ℕ) : List ℕ → List ℕ
  | [] => [x]
  | y :: rest =>
    if x < y then x :: y :: rest
    else if x = y then y :: rest
    else y :: insertBp x rest

/-- Modelled from the spec: the sorted, duplicate-free list of breakpoints —
every span's start and end coordinate. -/
def bpList (spans : List Span) : List ℕ :=
  spans.foldr (fun s acc => insertBp s.start (insertBp s.stop acc)) []

/-- Modelled from the spec: the elementary runs of the sweep — one run per
interval between consecutive breakpoints, carrying the depth held throughout
that interval (the depth at its left end). -/
def intervalRuns (spans : List Span) : List ℕ → List Run
  | a :: b :: rest => ⟨a, b, depthAt spans a⟩ :: intervalRuns spans (b :: rest)
  | _ => []

/-- Modelled from the spec: the depth ceiling clamps every depth at the
ceiling value when one is configured. -/
def ceilDepth (ceiling : Option ℕ) (d : ℕ) : ℕ :=
  match ceiling with
  | none => d
  | some m => min d m

/-- Apply the depth ceiling to every elementary run. -/
def applyCeiling (ceiling : Option ℕ) (rs : List Run) : List Run :=
  rs.map fun r => ⟨r.start, r.stop, ceilDepth ceiling r.depth⟩

/-- Modelled from the spec: merge the current run into the following runs —
an adjacent run of equal depth is absorbed (maximal-run formation), a run of
different depth closes the current run and starts a new one. -/
def mergeInto (cur : Run) : List Run → List Run
  | [] => [cur]
  | r :: rest =>
    if cur.depth = r.depth then mergeInto ⟨cur.start, r.stop, cur.depth⟩ rest
    else cur :: mergeInto r rest

/-- Merge all adjacent equal-depth runs. -/
def mergeRuns : List Run → List Run
  | [] => []
  | r :: rest => mergeInto r rest

/-- Modelled from the spec: when `includeZero` is false, zero-depth runs are
omitted from the output (creating gaps); when true they are emitted. -/
def filterZeros (includeZero : Bool) (rs : List Run) : List Run :=
  if includeZero then rs else rs.filter fun r => r.depth ≠ 0

/-- Modelled from the spec (§4.3): the coverage accumulation for one
chromosome — elementary runs between consecutive breakpoints, depth ceiling,
maximal-run merging, then zero-run filtering. -/
def accumulate (spans : List Span) (ceiling : Option ℕ) (includeZero : Bool) :
    List Run :=
  filterZeros includeZero
    (mergeRuns (applyCeiling ceiling (intervalRuns spans (bpList spans))))

/-- The strict ordering emitted runs satisfy pairwise: both runs non-empty,
the first entirely before the second, and equal depths forbidden when the
runs abut. -/
def StrictRunOrder (r₁ r₂ : Run) : Prop :=
  r₁.start < r₁.stop ∧ r₂.start < r₂.stop ∧ r₁.stop ≤ r₂.start ∧
    (r₁.stop = r₂.start → r₁.depth ≠ r₂.depth)

instance : IsTrans Run StrictRunOrder := by
  constructor
  rintro a b c ⟨ha, hb, hab, -⟩ ⟨-, hc, hbc, -⟩
  refine ⟨ha, hc, ?_, ?_⟩ <;> omega

/-! ## Strand-policy lemmas -/

theorem get_strand_mapping_forward {s : String} (h : lowerStr s = "forward") :
    get_strand_mapping s = .ok ⟨"+", "-"⟩ := by
  unfold get_strand_mapping
  rw [if_pos h]

theorem get_strand_mapping_reverse {s : String} (h : lowerStr s = "reverse") :
    get_strand_mapping s = .ok ⟨"-", "+"⟩ := by
  unfold get_strand_mapping
  rw [if_neg (by rw [h]; decide), if_pos h]

theorem get_strand_mapping_other {s : String} (h1 : lowerStr s ≠ "forward")
    (h2 : lowerStr s ≠ "reverse") :
    get_strand_mapping s = .error (.invalidProtocolLabel s) := by
  unfold get_strand_mapping
  rw [if_neg h1, if_neg h2]

theorem get_output_prefixes_forward {s : String} (bp : String)
    (h : lowerStr s = "forward") :
    get_output_prefixes bp s = .ok ⟨bp ++ ".plus", bp ++ ".minus"⟩ := by
  unfold get_output_prefixes
  rw [get_strand_mapping_forward h]
  rfl

theorem get_output_prefixes_reverse {s : String} (bp : String)
    (h : lowerStr s = "reverse") :
    get_output_prefixes bp s = .ok ⟨bp ++ ".minus", bp ++ ".plus"⟩ := by
  unfold get_output_prefixes
  rw [get_strand_mapping_reverse h]
  rfl

/-- C3: for the protocol label `"forward"` (any letter case) `get_strand_mapping`
returns the identity mapping `{"+": "+", "-": "-"}`; for `"reverse"` (any case)
the inverted mapping `{"+": "-", "-": "+"}`; and for every other string it
raises the `InvalidProtocolLabel` `ValueError` (the function is pure, so the
failure has no side effects). -/
theorem get_strand_mapping_spec (s : String) :
    (lowerStr s = "forward" → get_strand_mapping s = .ok ⟨"+", "-"⟩) ∧
    (lowerStr s = "reverse" → get_strand_mapping s = .ok ⟨"-", "+"⟩) ∧
    (lowerStr s ≠ "forward" → lowerStr s ≠ "reverse" →
      get_strand_mapping s = .error (.invalidProtocolLabel s)) :=
  ⟨get_strand_mapping_forward, get_strand_mapping_reverse,
   get_strand_mapping_other⟩

/-- Evaluation of C3 at the three kinds of concrete input: the upper-case
forward label, a mixed-case reverse label, and an unsupported label. -/
theorem get_strand_mapping_spec_witness :
    get_strand_mapping "FORWARD" = .ok ⟨"+", "-"⟩ ∧
    get_strand_mapping "Reverse" = .ok ⟨"-", "+"⟩ ∧
    get_strand_mapping "unstranded" = .error (.invalidProtocolLabel "unstranded") :=
  ⟨(get_strand_mapping_spec "FORWARD").1 (by decide),
   (get_strand_mapping_spec "Reverse").2.1 (by decide),
   (get_strand_mapping_spec "unstranded").2.2 (by decide) (by decide)⟩

/-- C4: for every base prefix, `get_output_prefixes` with the identity
assignment (label `"forward"`) maps `"+"` to `basePrefix ++ ".plus"` and `"-"`
to `basePrefix ++ ".minus"`, and with the inverted assignment (label
`"reverse"`) maps `"+"` to `basePrefix ++ ".minus"` and `"-"` to
`basePrefix ++ ".plus"`; the function is pure string construction with no
I/O. -/
theorem get_output_prefixes_spec (bp s : String) :
    (lowerStr s = "forward" →
      get_output_prefixes bp s = .ok ⟨bp ++ ".plus", bp ++ ".minus"⟩) ∧
    (lowerStr s = "reverse" →
      get_output_prefixes bp s = .ok ⟨bp ++ ".minus", bp ++ ".plus"⟩) :=
  ⟨get_output_prefixes_forward bp, get_output_prefixes_reverse bp⟩

/-- Evaluation of C4 at the base prefix `"sample"` for both protocol
labels. -/
theorem get_output_prefixes_spec_witness :
    get_output_prefixes "sample" "forward" = .ok ⟨"sample.plus", "sample.minus"⟩ ∧
    get_output_prefixes "sample" "reverse" = .ok ⟨"sample.minus", "sample.plus"⟩ :=
  ⟨(get_output_prefixes_spec "sample" "forward").1 (by decide),
   (get_output_prefixes_spec "sample" "reverse").2 (by decide)⟩

/-! ## CLI control-flow lemmas -/

theorem checkStrands_ok_iff (strands : List String) :
    checkStrands strands = .ok () ↔ ∀ s ∈ strands, s = "+" ∨ s = "-" := by
  induction strands with
  | nil => simp [checkStrands]
  | cons s rest ih =>
    unfold checkStrands
    by_cases h : s = "+" ∨ s = "-"
    · rw [if_pos h]
      simp [ih, h]
    · rw [if_neg h]
      simp [h]

theorem checkStrands_error_shape (strands : List String) (e : Err)
    (h : checkStrands strands = .error e) :
    ∃ s, e = .invalidStrandSelector s := by
  induction strands with
  | nil => simp [checkStrands] at h
  | cons s rest ih =>
    unfold checkStrands at h
    by_cases hs : s = "+" ∨ s = "-"
    · rw [if_pos hs] at h
      exact ih h
    · rw [if_neg hs] at h
      exact ⟨s, (Except.error.injEq _ _).mp h.symm⟩

theorem checkStrands_not_missing (strands : List String) :
    checkStrands strands ≠ .error .missingOutputMode := by
  intro h
  obtain ⟨s, hs⟩ := checkStrands_error_shape strands _ h
  exact Err.noConfusion hs

/-- When at least one of `bg` / `bga` is set, `validate_parameters` can fail
in many ways but never with the missing-output-mode error. -/
theorem validate_parameters_not_missing (be : Bool) (bamp lt : String)
    (strands : List String) (bg bga fp tp : Bool)
    (hone : bg = true ∨ bga = true) :
    validate_parameters be bamp lt strands bg bga fp tp
      ≠ .error .missingOutputMode := by
  intro h
  unfold validate_parameters at h
  simp only [throw, throwThe, MonadExceptOf.throw, Bind.bind, Except.bind,
    pure, Except.pure] at h
  split at h
  · simp at h
  · split at h
    · simp at h
    · split at h
      · rename_i e heq
        rw [Except.error.inj h] at heq
        exact checkStrands_not_missing strands heq
      · split at h
        · simp at h
        · split at h
          · rename_i h4
            rcases hone with h' | h' <;> simp [h'] at h4
          · split at h
            · simp at h
            · simp at h

/-- When at least one of `bg` / `bga` is set, `get_stranded_bedgraph` never
fails with the missing-output-mode error. -/
theorem get_stranded_bedgraph_not_missing (bam strand pre : String)
    (split pc fs du ignoreD : Bool) (scale : ℚ) (bg bga : Bool)
    (md : Option ℤ) (fp tp tl : Bool) (topts : Option String)
    (hone : bg = true ∨ bga = true) :
    get_stranded_bedgraph bam strand pre split pc fs du ignoreD scale bg bga
      md fp tp tl topts ≠ .error .missingOutputMode := by
  intro h
  unfold get_stranded_bedgraph at h
  split at h
  · simp at h
  · split at h
    · simp at h
    · split at h
      · rename_i h3
        rcases hone with h' | h' <;> simp [h'] at h3
      · split at h
        · simp at h
        · simp at h

/-- When all of `get_stranded_bedgraph`'s validations pass, the result is the
assembled invocation together with the output path
`output_prefix ++ "." ++ extension`. -/
theorem get_stranded_bedgraph_ok (bam strand pre : String)
    (split pc fs du ignoreD : Bool) (scale : ℚ) (bg bga : Bool)
    (md : Option ℤ) (fp tp tl : Bool) (topts : Option String)
    (hstrand : strand = "+" ∨ strand = "-") (hbb : ¬ (bg ∧ bga))
    (hsome : bg ∨ bga) (hft : ¬ (fp ∧ tp)) :
    get_stranded_bedgraph bam strand pre split pc fs du ignoreD scale bg bga
      md fp tp tl topts =
    .ok (bam, buildKwargs strand split pc fs du ignoreD scale bg bga md fp tp tl topts,
         pre ++ "." ++ get_file_extension FileType.BEDGRAPH) := by
  unfold get_stranded_bedgraph
  rw [if_neg (by tauto), if_neg hbb, if_neg (by tauto), if_neg hft]

/-- Whatever the other arguments, an `.ok` result of `get_stranded_bedgraph`
carries the path `output_prefix ++ "." ++ extension` in its last component. -/
theorem get_stranded_bedgraph_ok_path (bam strand pre : String)
    (split pc fs du ignoreD : Bool) (scale : ℚ) (bg bga : Bool)
    (md : Option ℤ) (fp tp tl : Bool) (topts : Option String)
    (t : String × CovKwargs × String)
    (h : get_stranded_bedgraph bam strand pre split pc fs du ignoreD scale bg bga
      md fp tp tl topts = .ok t) :
    t.2.2 = pre ++ "." ++ get_file_extension FileType.BEDGRAPH := by
  unfold get_stranded_bedgraph at h
  split_ifs at h
  rw [← (Except.ok.injEq _ _).mp h]

/-- An `.ok` result of `strandStep` is the strand's resolved prefix with the
fixed extension appended. -/
theorem strandStep_ok (prefixes : StrandMap) (bam : String)
    (split pc fs du ignoreD : Bool) (scale : ℚ) (bg bga : Bool)
    (md : Option ℤ) (fp tp tl : Bool) (topts : Option String)
    (strand path : String)
    (h : strandStep prefixes bam split pc fs du ignoreD scale bg bga md fp tp tl
      topts strand = .ok path) :
    ∃ p, prefixes.get strand = some p ∧
      path = p ++ "." ++ get_file_extension FileType.BEDGRAPH := by
  unfold strandStep at h
  cases hp : prefixes.get strand with
  | none => rw [hp] at h; simp [Bind.bind, Except.bind] at h
  | some p =>
    rw [hp] at h
    refine ⟨p, rfl, ?_⟩
    simp only [Bind.bind, Except.bind] at h
    cases hg : get_stranded_bedgraph bam strand p split pc fs du ignoreD scale
        bg bga md fp tp tl topts with
    | error e => rw [hg] at h; simp at h
    | ok t =>
      rw [hg] at h
      obtain ⟨b, kw, pth⟩ := t
      simp only [pure, Except.pure, Except.ok.injEq] at h
      rw [← h]
      exact get_stranded_bedgraph_ok_path bam strand p split pc fs du ignoreD
        scale bg bga md fp tp tl topts _ hg

/-- A fully successful strand loop produces one output per strand, in order,
each being the `.ok` value of the step at that strand. -/
theorem strandLoop_ok (f : String → Except Err String) :
    ∀ (strands files : List String), strandLoop f strands = (files, none) →
    files.length = strands.length ∧
    ∀ i (hi : i < strands.length) (hi' : i < files.length),
      f (strands.get ⟨i, hi⟩) = .ok (files.get ⟨i, hi'⟩) := by
  intro strands
  induction strands with
  | nil =>
    intro files h
    simp only [strandLoop, Prod.mk.injEq] at h
    obtain ⟨h1, -⟩ := h
    subst h1
    exact ⟨rfl, fun i hi _ => absurd hi (Nat.not_lt_zero i)⟩
  | cons s rest ih =>
    intro files h
    simp only [strandLoop] at h
    cases hf : f s with
    | error e => rw [hf] at h; simp at h
    | ok p =>
      rw [hf] at h
      simp only [Prod.mk.injEq] at h
      obtain ⟨h1, h2⟩ := h
      obtain ⟨hlen, hget⟩ := ih (strandLoop f rest).1 (by rw [← h2])
      subst h1
      refine ⟨by simp [hlen], ?_⟩
      intro i hi hi'
      cases i with
      | zero => simpa using hf
      | succ j =>
        have hj : j < rest.length := by simpa using hi
        have hj' : j < (strandLoop f rest).1.length := by simpa using hi'
        simpa using hget j hj hj'

/-- C5: for every valid invocation of `rnabam2cov`, the returned list of
output file paths has the same length and order as the requested strand list,
and the path for each requested aligned strand is that strand's resolved
prefix (per the strand policy) with the fixed `.bedgraph` extension
appended. -/
theorem rnabam2cov_output_paths (be : Bool) (bam lt pre : String)
    (strands : List String) (split pc fs du ignoreD : Bool) (scale : ℚ)
    (bg bga : Bool) (md : Option ℤ) (fp tp tl : Bool) (topts : Option String)
    (files : List String)
    (h : rnabam2cov be bam lt pre strands split pc fs du ignoreD scale bg bga
      md fp tp tl topts = .ok files) :
    files.length = strands.length ∧
    ∃ prefixes, get_output_prefixes pre lt = .ok prefixes ∧
      ∀ i (hi : i < strands.length) (hi' : i < files.length),
        ∃ p, prefixes.get (strands.get ⟨i, hi⟩) = some p ∧
          files.get ⟨i, hi'⟩ = p ++ ".bedgraph" := by
  unfold rnabam2cov at h
  cases hv : validate_parameters be bam lt strands bg bga fp tp with
  | error e => rw [hv] at h; simp [Bind.bind, Except.bind] at h
  | ok u =>
    rw [hv] at h
    simp only [Bind.bind, Except.bind] at h
    cases hp : get_output_prefixes pre lt with
    | error e => rw [hp] at h; simp at h
    | ok prefixes =>
      rw [hp] at h
      simp only [] at h
      cases hl : strandLoop (strandStep prefixes bam split pc fs du ignoreD
          scale bg bga md fp tp tl topts) strands with
      | mk fls err =>
        rw [hl] at h
        cases err with
        | some e => simp [throw, throwThe, MonadExceptOf.throw] at h
        | none =>
          simp only [pure, Except.pure, Except.ok.injEq] at h
          subst h
          obtain ⟨hlen, hget⟩ := strandLoop_ok _ strands fls hl
          refine ⟨hlen, prefixes, rfl, ?_⟩
          intro i hi hi'
          obtain ⟨p, hp1, hp2⟩ := strandStep_ok prefixes bam split pc fs du
            ignoreD scale bg bga md fp tp tl topts _ _ (hget i hi hi')
          refine ⟨p, hp1, ?_⟩
          rw [hp2, get_file_extension, String.append_assoc]
          rfl

/-- Evaluation of C5 at a concrete valid invocation (library type `forward`,
both strands requested): two files are produced, one per strand. -/
theorem rnabam2cov_output_paths_witness :
    (["pref.plus.bedgraph", "pref.minus.bedgraph"] : List String).length
      = (["+", "-"] : List String).length :=
  (rnabam2cov_output_paths true "reads.bam" "forward" "pref" ["+", "-"] true
    false false true false 1 true false none false false false none
    ["pref.plus.bedgraph", "pref.minus.bedgraph"] (by rfl)).1

/-- C6 counterexample: in a call with `bg` and `bga` both `True` but an
invalid strand selector, `get_stranded_bedgraph` raises the
`InvalidStrandSelector` `ValueError`, not the `MutuallyExclusiveOptionConflict`
one: the strand check precedes the mutual-exclusion checks. -/
theorem mutual_exclusion_counterexample :
    get_stranded_bedgraph "reads.bam" "x" "pref" true false false true false 1
      true true none false false false none
      = .error (.invalidStrandSelector "x") ∧
    Err.invalidStrandSelector "x" ≠ Err.mutuallyExclusiveBgBga ∧
    Err.invalidStrandSelector "x" ≠ Err.mutuallyExclusiveEndpoints := by
  refine ⟨?_, by decide, by decide⟩
  unfold get_stranded_bedgraph
  rw [if_pos (by decide)]

theorem rnabam2cov_error_of_validate (be : Bool) (bam lt pre : String)
    (strands : List String) (split pc fs du ignoreD : Bool) (scale : ℚ)
    (bg bga : Bool) (md : Option ℤ) (fp tp tl : Bool) (topts : Option String)
    (e : Err) (h : validate_parameters be bam lt strands bg bga fp tp = .error e) :
    rnabam2cov be bam lt pre strands split pc fs du ignoreD scale bg bga md
      fp tp tl topts = .error e := by
  unfold rnabam2cov
  rw [h]
  rfl

theorem validate_parameters_conflict (be : Bool) (bamp lt : String)
    (strands : List String) (bg bga fp tp : Bool)
    (hbe : be = true) (hlt : lt = "forward" ∨ lt = "reverse")
    (hstrands : ∀ s ∈ strands, s = "+" ∨ s = "-") :
    (bg = true → bga = true →
      validate_parameters be bamp lt strands bg bga fp tp
        = .error .mutuallyExclusiveBgBga) ∧
    (¬(bg = true ∧ bga = true) → (bg = true ∨ bga = true) →
      fp = true → tp = true →
      validate_parameters be bamp lt strands bg bga fp tp
        = .error .mutuallyExclusiveEndpoints) := by
  subst hbe
  unfold validate_parameters
  rw [if_neg (by simp), if_neg (not_not_intro hlt)]
  simp only [Bind.bind, Except.bind, (checkStrands_ok_iff strands).mpr hstrands]
  constructor
  · intro hbg hbga
    rw [if_pos ⟨hbg, hbga⟩]
    rfl
  · intro hnot hone hfp htp
    rw [if_neg hnot, if_neg (by tauto), if_pos ⟨hfp, htp⟩]
    rfl

/-- C6 (amended): when the validations that precede the mutual-exclusion
checks pass (valid strand selector for `get_stranded_bedgraph`; existing BAM,
valid library type and valid strand list for `validate_parameters` /
`rnabam2cov`), a call with `bg` and `bga` both `True` fails with the bg/bga
`MutuallyExclusiveOptionConflict`, and a call with `five_prime` and
`three_prime` both `True` (and exactly one of bg/bga set) fails with the
endpoint `MutuallyExclusiveOptionConflict` — in every case as an `.error`
result produced by the validation prologue, i.e. before any span is read and
before any output file is created. -/
theorem mutual_exclusion_eager (bam strand pre : String)
    (split pc fs du ignoreD : Bool) (scale : ℚ) (bg bga : Bool) (md : Option ℤ)
    (fp tp tl : Bool) (topts : Option String) (be : Bool) (bamp lt opre : String)
    (strands : List String)
    (hstrand : strand = "+" ∨ strand = "-")
    (hbe : be = true) (hlt : lt = "forward" ∨ lt = "reverse")
    (hstrands : ∀ s ∈ strands, s = "+" ∨ s = "-") :
    (bg = true → bga = true →
      get_stranded_bedgraph bam strand pre split pc fs du ignoreD scale bg bga
        md fp tp tl topts = .error .mutuallyExclusiveBgBga) ∧
    (¬(bg = true ∧ bga = true) → (bg = true ∨ bga = true) →
      fp = true → tp = true →
      get_stranded_bedgraph bam strand pre split pc fs du ignoreD scale bg bga
        md fp tp tl topts = .error .mutuallyExclusiveEndpoints) ∧
    (bg = true → bga = true →
      rnabam2cov be bamp lt opre strands split pc fs du ignoreD scale bg bga
        md fp tp tl topts = .error .mutuallyExclusiveBgBga) ∧
    (¬(bg = true ∧ bga = true) → (bg = true ∨ bga = true) →
      fp = true → tp = true →
      rnabam2cov be bamp lt opre strands split pc fs du ignoreD scale bg bga
        md fp tp tl topts = .error .mutuallyExclusiveEndpoints) := by
  obtain ⟨hv1, hv2⟩ := validate_parameters_conflict be bamp lt strands bg bga
    fp tp hbe hlt hstrands
  refine ⟨?_, ?_, ?_, ?_⟩
  · intro hbg hbga
    unfold get_stranded_bedgraph
    rw [if_neg (by tauto), if_pos ⟨hbg, hbga⟩]
  · intro hnot hone hfp htp
    unfold get_stranded_bedgraph
    rw [if_neg (by tauto), if_neg hnot, if_neg (by tauto), if_pos ⟨hfp, htp⟩]
  · intro hbg hbga
    exact rnabam2cov_error_of_validate be bamp lt opre strands split pc fs du
      ignoreD scale bg bga md fp tp tl topts _ (hv1 hbg hbga)
  · intro hnot hone hfp htp
    exact rnabam2cov_error_of_validate be bamp lt opre strands split pc fs du
      ignoreD scale bg bga md fp tp tl topts _ (hv2 hnot hone hfp htp)

/-- Evaluation of C6 (amended) at concrete conflicting option sets, for both
`get_stranded_bedgraph` and `rnabam2cov`. -/
theorem mutual_exclusion_eager_witness :
    get_stranded_bedgraph "reads.bam" "+" "pref" true false false true false 1
      true true none false false false none = .error .mutuallyExclusiveBgBga ∧
    get_stranded_bedgraph "reads.bam" "+" "pref" true false false true false 1
      true false none true true false none
      = .error .mutuallyExclusiveEndpoints ∧
    rnabam2cov true "reads.bam" "forward" "pref" ["+"] true false false true
      false 1 true true none false false false none
      = .error .mutuallyExclusiveBgBga ∧
    rnabam2cov true "reads.bam" "forward" "pref" ["+"] true false false true
      false 1 true false none true true false none
      = .error .mutuallyExclusiveEndpoints :=
  ⟨(mutual_exclusion_eager "reads.bam" "+" "pref" true false false true false 1
      true true none false false false none true "reads.bam" "forward" "pref"
      ["+"] (by decide) rfl (by decide) (by decide)).1 rfl rfl,
   (mutual_exclusion_eager "reads.bam" "+" "pref" true false false true false 1
      true false none true true false none true "reads.bam" "forward" "pref"
      ["+"] (by decide) rfl (by decide) (by decide)).2.1 (by decide)
      (Or.inl rfl) rfl rfl,
   (mutual_exclusion_eager "reads.bam" "+" "pref" true false false true false 1
      true true none false false false none true "reads.bam" "forward" "pref"
      ["+"] (by decide) rfl (by decide) (by decide)).2.2.1 rfl rfl,
   (mutual_exclusion_eager "reads.bam" "+" "pref" true false false true false 1
      true false none true true false none true "reads.bam" "forward" "pref"
      ["+"] (by decide) rfl (by decide) (by decide)).2.2.2 (by decide)
      (Or.inl rfl) rfl rfl⟩

/-- C7: for every strand argument other than `"+"` / `"-"`,
`get_stranded_bedgraph` fails with `InvalidStrandSelector` immediately — the
strand check is the first validation, so the result is this error whatever
the remaining arguments, before any coverage computation; and a successful
`validate_parameters` implies every requested strand was in `{"+", "-"}`
(equivalently, a strand list with an element outside that set is rejected). -/
theorem invalid_strand_selector_rejected (bam strand pre : String)
    (split pc fs du ignoreD : Bool) (scale : ℚ) (bg bga : Bool) (md : Option ℤ)
    (fp tp tl : Bool) (topts : Option String) (be : Bool) (bamp lt : String)
    (strands : List String)
    (hstrand : ¬(strand = "+" ∨ strand = "-")) :
    get_stranded_bedgraph bam strand pre split pc fs du ignoreD scale bg bga md
      fp tp tl topts = .error (.invalidStrandSelector strand) ∧
    (validate_parameters be bamp lt strands bg bga fp tp = .ok () →
      ∀ s ∈ strands, s = "+" ∨ s = "-") := by
  constructor
  · unfold get_stranded_bedgraph
    rw [if_pos hstrand]
  · intro h
    unfold validate_parameters at h
    simp only [throw, throwThe, MonadExceptOf.throw, Bind.bind, Except.bind,
      pure, Except.pure] at h
    split at h
    · simp at h
    · split at h
      · simp at h
      · split at h
        · simp at h
        · rename_i u heq
          cases u
          exact (checkStrands_ok_iff strands).mp heq

/-- Evaluation of C7 at the invalid strand selector `"plus"` and at a valid
strand list. -/
theorem invalid_strand_selector_rejected_witness :
    get_stranded_bedgraph "reads.bam" "plus" "pref" true false false true false
      1 true false none false false false none
      = .error (.invalidStrandSelector "plus") ∧
    ("+" = "+" ∨ "+" = "-") :=
  ⟨(invalid_strand_selector_rejected "reads.bam" "plus" "pref" true false false
      true false 1 true false none false false false none true "reads.bam"
      "forward" ["+"] (by decide)).1,
   (invalid_strand_selector_rejected "reads.bam" "plus" "pref" true false false
      true false 1 true false none false false false none true "reads.bam"
      "forward" ["+"] (by decide)).2 (by rfl) "+" (by decide)⟩

/-- C8: if the strand at position `i` of the requested list fails while all
earlier strands succeed, the loop stops with that strand's error, the files
already produced for the earlier strands are exactly the outputs of the
successful prefix (untouched by the failure — no cleanup or rollback), and
the loop's entire behaviour is already determined by the steps up to and
including position `i`: any step function agreeing with `f` there produces
the identical result, so no later strand is ever processed. -/
theorem strand_failure_stops_processing (f g : String → Except Err String) :
    ∀ (strands : List String) (i : ℕ) (e : Err) (hi : i < strands.length),
    f (strands.get ⟨i, hi⟩) = .error e →
    (∀ j (hj : j < i), ∃ p, f (strands.get ⟨j, Nat.lt_trans hj hi⟩) = .ok p) →
    (∀ j (hj : j < strands.length), j ≤ i →
      g (strands.get ⟨j, hj⟩) = f (strands.get ⟨j, hj⟩)) →
    (strandLoop f strands).2 = some e ∧
    (strandLoop f strands).1
      = ((strands.take i).map f).filterMap Except.toOption ∧
    strandLoop g strands = strandLoop f strands
  | [], i, e, hi => absurd hi (Nat.not_lt_zero i)
  | s :: rest, 0, e, hi => by
    intro hfail hpre hagree
    have hf : f s = .error e := hfail
    have hg : g s = f s := hagree 0 hi (Nat.le_refl 0)
    refine ⟨?_, ?_, ?_⟩ <;> simp [strandLoop, hf, hg]
  | s :: rest, n + 1, e, hi => by
    intro hfail hpre hagree
    have hn : n < rest.length := Nat.succ_lt_succ_iff.mp hi
    obtain ⟨p, hp⟩ := hpre 0 (Nat.succ_pos n)
    have hf : f s = .ok p := hp
    have hg : g s = f s := hagree 0 (by simp) (Nat.zero_le _)
    have ihh := strand_failure_stops_processing f g rest n e hn
      (by simpa using hfail)
      (fun j hj => by simpa using hpre (j + 1) (Nat.succ_lt_succ hj))
      (fun j hj hle => by
        simpa using hagree (j + 1) (Nat.succ_lt_succ hj) (Nat.succ_le_succ hle))
    refine ⟨?_, ?_, ?_⟩
    · simpa [strandLoop, hf] using ihh.1
    · simp [strandLoop, hf, ihh.2.1, List.filterMap_cons, Except.toOption]
    · simp [strandLoop, hf, hg, ihh.2.2]

/-- Evaluation of C8 at a concrete two-strand run whose second strand fails:
the first strand's file survives, the error is the second strand's, and a
step function agreeing on the consulted strands gives the identical result. -/
theorem strand_failure_stops_processing_witness :
    (strandLoop (fun s => if s = "+" then Except.ok "pref.plus.bedgraph"
        else Except.error (Err.keyError s)) ["+", "-"]).2
      = some (Err.keyError "-") ∧
    (strandLoop (fun s => if s = "+" then Except.ok "pref.plus.bedgraph"
        else Except.error (Err.keyError s)) ["+", "-"]).1
      = (((["+", "-"] : List String).take 1).map
          (fun s => if s = "+" then Except.ok "pref.plus.bedgraph"
            else Except.error (Err.keyError s))).filterMap Except.toOption ∧
    strandLoop (fun s => if s = "+" then Except.ok "pref.plus.bedgraph"
        else Except.error (Err.keyError s)) ["+", "-"]
      = strandLoop (fun s => if s = "+" then Except.ok "pref.plus.bedgraph"
        else Except.error (Err.keyError s)) ["+", "-"] :=
  strand_failure_stops_processing
    (fun s => if s = "+" then Except.ok "pref.plus.bedgraph"
      else Except.error (Err.keyError s))
    (fun s => if s = "+" then Except.ok "pref.plus.bedgraph"
      else Except.error (Err.keyError s))
    ["+", "-"] 1 (Err.keyError "-") (by decide) (by rfl)
    (fun j hj => by
      have hj0 : j = 0 := Nat.lt_one_iff.mp hj
      subst hj0
      exact ⟨"pref.plus.bedgraph", rfl⟩)
    (fun j hj hle => rfl)

/-- C9: `max_depth = 0` behaves exactly as `max_depth = None`: the argument is
tested for Python truthiness (`if max_depth:`), so a zero ceiling adds no
`max` key to the `genome_coverage` kwargs and the whole call is
indistinguishable from one with no ceiling. -/
theorem max_depth_zero_is_none (bam strand pre : String)
    (split pc fs du ignoreD : Bool) (scale : ℚ) (bg bga : Bool)
    (fp tp tl : Bool) (topts : Option String) :
    (buildKwargs strand split pc fs du ignoreD scale bg bga (some 0) fp tp tl
      topts).max = none ∧
    get_stranded_bedgraph bam strand pre split pc fs du ignoreD scale bg bga
      (some 0) fp tp tl topts =
    get_stranded_bedgraph bam strand pre split pc fs du ignoreD scale bg bga
      none fp tp tl topts := by
  constructor
  · simp [buildKwargs]
  · unfold get_stranded_bedgraph buildKwargs
    simp

/-- C10: for every accepted command line, `main` passes exactly one of
`bg` / `bga` as `True` (`--bga` yields `(False, True)`, anything else
`(True, False)`), so the neither-`bg`-nor-`bga` (`MissingOutputModeError`)
branch of `validate_parameters` and of `get_stranded_bedgraph` can never be
taken on a CLI invocation. -/
theorem cli_bg_bga_exactly_one (argsBga : Bool) (be : Bool) (bamp lt : String)
    (strands : List String) (fp tp : Bool) (bam strand pre : String)
    (split pc fs du ignoreD : Bool) (scale : ℚ) (md : Option ℤ) (tl : Bool)
    (topts : Option String) :
    mainBgBga argsBga = (!argsBga, argsBga) ∧
    ((mainBgBga argsBga).1 = true ∨ (mainBgBga argsBga).2 = true) ∧
    ¬((mainBgBga argsBga).1 = true ∧ (mainBgBga argsBga).2 = true) ∧
    validate_parameters be bamp lt strands (mainBgBga argsBga).1
      (mainBgBga argsBga).2 fp tp ≠ .error .missingOutputMode ∧
    get_stranded_bedgraph bam strand pre split pc fs du ignoreD scale
      (mainBgBga argsBga).1 (mainBgBga argsBga).2 md fp tp tl topts
      ≠ .error .missingOutputMode := by
  refine ⟨?_, ?_, ?_, ?_, ?_⟩
  · cases argsBga <;> rfl
  · cases argsBga <;> simp [mainBgBga]
  · cases argsBga <;> simp [mainBgBga]
  · exact validate_parameters_not_missing be bamp lt strands _ _ fp tp
      (by cases argsBga <;> simp [mainBgBga])
  · exact get_stranded_bedgraph_not_missing bam strand pre split pc fs du
      ignoreD scale _ _ md fp tp tl topts
      (by cases argsBga <;> simp [mainBgBga])

/-! ## Coverage-accumulator lemmas: breakpoints and elementary runs -/

theorem mem_insertBp (y x : ℕ) (l : List ℕ) :
    y ∈ insertBp x l ↔ y = x ∨ y ∈ l := by
  induction l with
  | nil => simp [insertBp]
  | cons z rest ih =>
    simp only [insertBp]
    split_ifs with h1 h2
    · simp [List.mem_cons]
    · subst h2
      simp only [List.mem_cons]
      tauto
    · simp only [List.mem_cons, ih]
      tauto

theorem sorted_insertBp (x : ℕ) (l : List ℕ) (hl : l.Sorted (· < ·)) :
    (insertBp x l).Sorted (· < ·) := by
  induction l with
  | nil => simp [insertBp]
  | cons z rest ih =>
    rw [List.sorted_cons] at hl
    simp only [insertBp]
    split_ifs with h1 h2
    · rw [List.sorted_cons]
      constructor
      · intro b hb
        rcases List.mem_cons.mp hb with rfl | hb
        · exact h1
        · exact h1.trans (hl.1 b hb)
      · exact List.sorted_cons.mpr hl
    · exact List.sorted_cons.mpr hl
    · rw [List.sorted_cons]
      refine ⟨?_, ih hl.2⟩
      intro b hb
      rcases (mem_insertBp b x rest).mp hb with rfl | hb
      · omega
      · exact hl.1 b hb

theorem sorted_bpList (spans : List Span) : (bpList spans).Sorted (· < ·) := by
  unfold bpList
  induction spans with
  | nil => simp
  | cons s rest ih =>
    simp only [List.foldr_cons]
    exact sorted_insertBp _ _ (sorted_insertBp _ _ ih)

theorem mem_bpList (spans : List Span) (s : Span) (hs : s ∈ spans) :
    s.start ∈ bpList spans ∧ s.stop ∈ bpList spans := by
  unfold bpList
  induction spans with
  | nil => cases hs
  | cons t rest ih =>
    simp only [List.foldr_cons]
    rcases List.mem_cons.mp hs with rfl | hs
    · exact ⟨(mem_insertBp _ _ _).mpr (Or.inl rfl),
        (mem_insertBp _ _ _).mpr (Or.inr ((mem_insertBp _ _ _).mpr (Or.inl rfl)))⟩
    · obtain ⟨h1, h2⟩ := ih hs
      exact ⟨(mem_insertBp _ _ _).mpr (Or.inr ((mem_insertBp _ _ _).mpr (Or.inr h1))),
        (mem_insertBp _ _ _).mpr (Or.inr ((mem_insertBp _ _ _).mpr (Or.inr h2)))⟩

theorem depthAt_congr (spans : List Span) (p a : ℕ)
    (h : ∀ s ∈ spans, (s.start ≤ p ∧ p < s.stop) ↔ (s.start ≤ a ∧ a < s.stop)) :
    depthAt spans p = depthAt spans a := by
  unfold depthAt
  induction spans with
  | nil => rfl
  | cons s rest ih =>
    simp only [List.map_cons, List.sum_cons]
    rw [ih (fun t ht => h t (List.mem_cons_of_mem s ht))]
    congr 1
    by_cases hc : s.start ≤ p ∧ p < s.stop
    · rw [if_pos hc, if_pos ((h s (List.mem_cons_self s rest)).mp hc)]
    · rw [if_neg hc, if_neg (fun hc' => hc ((h s (List.mem_cons_self s rest)).mpr hc'))]

/-- No breakpoint lies strictly between two consecutive members of a sorted
coordinate list that is downward-closed for the breakpoints. -/
theorem no_bp_between (spans : List Span) (a b : ℕ) (rest : List ℕ)
    (hs : (a :: b :: rest).Sorted (· < ·))
    (hinv : ∀ x ∈ bpList spans, x ∈ a :: b :: rest ∨ ∀ y ∈ a :: b :: rest, x ≤ y)
    (x : ℕ) (hx : x ∈ bpList spans) : ¬(a < x ∧ x < b) := by
  rintro ⟨hax, hxb⟩
  rcases hinv x hx with hmem | hle
  · rcases List.mem_cons.mp hmem with rfl | hmem
    · omega
    · rcases List.mem_cons.mp hmem with rfl | hmem
      · omega
      · have hb : b < x :=
          (List.sorted_cons.mp (List.sorted_cons.mp hs).2).1 x hmem
        omega
  · have := hle a (List.mem_cons_self a _)
    omega

/-- Every elementary run of the sweep carries, at every position it covers,
exactly the accumulated depth of the spans covering that position. -/
theorem intervalRuns_depth (spans : List Span) :
    ∀ (M : List ℕ), M.Sorted (· < ·) →
    (∀ x ∈ bpList spans, x ∈ M ∨ ∀ y ∈ M, x ≤ y) →
    ∀ r ∈ intervalRuns spans M, ∀ p, r.start ≤ p → p < r.stop →
      depthAt spans p = r.depth
  | [] => by
    intro _ _ r hr
    simp [intervalRuns] at hr
  | [a] => by
    intro _ _ r hr
    simp [intervalRuns] at hr
  | a :: b :: rest => by
    intro hs hinv r hr p hp1 hp2
    rcases List.mem_cons.mp hr with rfl | hr
    · show depthAt spans p = depthAt spans a
      apply depthAt_congr
      intro s hsmem
      have h1 := no_bp_between spans a b rest hs hinv s.start
        (mem_bpList spans s hsmem).1
      have h2 := no_bp_between spans a b rest hs hinv s.stop
        (mem_bpList spans s hsmem).2
      revert hp1 hp2 h1 h2
      show a ≤ p → p < b → _
      intro hp1 hp2 h1 h2
      omega
    · have hs' : (b :: rest).Sorted (· < ·) := (List.sorted_cons.mp hs).2
      have hinv' : ∀ x ∈ bpList spans, x ∈ b :: rest ∨ ∀ y ∈ b :: rest, x ≤ y := by
        intro x hx
        rcases hinv x hx with hmem | hle
        · rcases List.mem_cons.mp hmem with rfl | hmem
          · right
            intro y hy
            exact le_of_lt ((List.sorted_cons.mp hs).1 y hy)
          · left
            exact hmem
        · right
          intro y hy
          exact hle y (List.mem_cons_of_mem a hy)
      exact intervalRuns_depth spans (b :: rest) hs' hinv' r hr p hp1 hp2

/-- Elementary runs are non-empty intervals. -/
theorem intervalRuns_pos (spans : List Span) :
    ∀ (M : List ℕ), M.Sorted (· < ·) →
    ∀ r ∈ intervalRuns spans M, r.start < r.stop
  | [] => by
    intro _ r hr
    simp [intervalRuns] at hr
  | [a] => by
    intro _ r hr
    simp [intervalRuns] at hr
  | a :: b :: rest => by
    intro hs r hr
    rcases List.mem_cons.mp hr with rfl | hr
    · exact (List.sorted_cons.mp hs).1 b (List.mem_cons_self b rest)
    · exact intervalRuns_pos spans (b :: rest) (List.sorted_cons.mp hs).2 r hr

/-- Elementary runs tile the breakpoint range: each run ends where the next
one starts. -/
theorem intervalRuns_chain (spans : List Span) :
    ∀ (M : List ℕ),
    (intervalRuns spans M).Chain' (fun r₁ r₂ => r₁.stop = r₂.start)
  | [] => by simp [intervalRuns]
  | [a] => by simp [intervalRuns]
  | a :: b :: rest => by
    cases rest with
    | nil => simp [intervalRuns]
    | cons c rest' =>
      exact List.Chain'.cons rfl (intervalRuns_chain spans (b :: c :: rest'))

/-! ## Coverage-accumulator lemmas: ceiling and maximal-run merging -/

theorem applyCeiling_mem (c : Option ℕ) (rs : List Run) (r : Run)
    (hr : r ∈ applyCeiling c rs) :
    ∃ r₀ ∈ rs, r = ⟨r₀.start, r₀.stop, ceilDepth c r₀.depth⟩ := by
  rcases List.mem_map.mp hr with ⟨r₀, h1, h2⟩
  exact ⟨r₀, h1, h2.symm⟩

theorem applyCeiling_pos (c : Option ℕ) (rs : List Run)
    (h : ∀ r ∈ rs, r.start < r.stop) :
    ∀ r ∈ applyCeiling c rs, r.start < r.stop := by
  intro r hr
  obtain ⟨r₀, h0, rfl⟩ := applyCeiling_mem c rs r hr
  exact h r₀ h0

theorem applyCeiling_chain (c : Option ℕ) (rs : List Run)
    (h : rs.Chain' (fun r₁ r₂ => r₁.stop = r₂.start)) :
    (applyCeiling c rs).Chain' (fun r₁ r₂ => r₁.stop = r₂.start) := by
  unfold applyCeiling
  rw [List.chain'_map]
  exact h

/-- The first run `mergeInto` emits starts where the current run starts and
keeps its depth. -/
theorem mergeInto_head :
    ∀ (l : List Run) (cur : Run),
    ∃ b tl, mergeInto cur l = ⟨cur.start, b, cur.depth⟩ :: tl
  | [], cur => ⟨cur.stop, [], rfl⟩
  | r :: rest, cur => by
    simp only [mergeInto]
    split_ifs with h
    · obtain ⟨b, tl, htl⟩ := mergeInto_head rest ⟨cur.start, r.stop, cur.depth⟩
      exact ⟨b, tl, htl⟩
    · exact ⟨cur.stop, mergeInto r rest, rfl⟩

/-- Merging keeps every run non-empty and produces abutting runs of pairwise
different depths (the maximal-run property). -/
theorem mergeInto_structure :
    ∀ (l : List Run) (cur : Run), cur.start < cur.stop →
    (∀ r ∈ l, r.start < r.stop) →
    (cur :: l).Chain' (fun r₁ r₂ => r₁.stop = r₂.start) →
    (∀ r ∈ mergeInto cur l, r.start < r.stop) ∧
    (mergeInto cur l).Chain'
      (fun r₁ r₂ => r₁.stop = r₂.start ∧ r₁.depth ≠ r₂.depth)
  | [], cur => by
    intro hcur _ _
    constructor
    · intro r hr
      rcases List.mem_singleton.mp hr with rfl
      exact hcur
    · simp [mergeInto]
  | r :: rest, cur => by
    intro hcur hl hc
    rw [List.chain'_cons] at hc
    obtain ⟨hcr, hc'⟩ := hc
    simp only [mergeInto]
    split_ifs with h
    · refine mergeInto_structure rest ⟨cur.start, r.stop, cur.depth⟩ ?_ ?_ ?_
      · have := hl r (List.mem_cons_self r rest)
        show cur.start < r.stop
        omega
      · intro r' hr'
        exact hl r' (List.mem_cons_of_mem r hr')
      · cases rest with
        | nil => simp
        | cons r'' rest'' =>
          rw [List.chain'_cons] at hc' ⊢
          exact ⟨hc'.1, hc'.2⟩
    · have ihr := mergeInto_structure rest r (hl r (List.mem_cons_self r rest))
        (fun r' h' => hl r' (List.mem_cons_of_mem r h')) hc'
      obtain ⟨b, tl, heq⟩ := mergeInto_head rest r
      constructor
      · intro r' hr'
        rcases List.mem_cons.mp hr' with rfl | hr'
        · exact hcur
        · exact ihr.1 r' hr'
      · rw [heq]
        rw [heq] at ihr
        exact List.Chain'.cons ⟨hcr, h⟩ ihr.2

/-- Merging preserves the pointwise depth description of the runs: if every
input run reports `f p` at each position `p` it covers, so does every merged
run. -/
theorem mergeInto_spec (f : ℕ → ℕ) :
    ∀ (l : List Run) (cur : Run),
    (∀ p, cur.start ≤ p → p < cur.stop → f p = cur.depth) →
    (∀ r ∈ l, ∀ p, r.start ≤ p → p < r.stop → f p = r.depth) →
    (cur :: l).Chain' (fun r₁ r₂ => r₁.stop = r₂.start) →
    ∀ r ∈ mergeInto cur l, ∀ p, r.start ≤ p → p < r.stop → f p = r.depth
  | [], cur => by
    intro hcur _ _ r hr
    rcases List.mem_singleton.mp hr with rfl
    exact hcur
  | r :: rest, cur => by
    intro hcur hl hc
    rw [List.chain'_cons] at hc
    obtain ⟨hcr, hc'⟩ := hc
    simp only [mergeInto]
    split_ifs with h
    · refine mergeInto_spec f rest ⟨cur.start, r.stop, cur.depth⟩ ?_ ?_ ?_
      · intro p hp1 hp2
        by_cases hp : p < cur.stop
        · exact hcur p hp1 hp
        · have := hl r (List.mem_cons_self r rest) p (by omega) hp2
          rw [this, ← h]
      · intro r' hr'
        exact hl r' (List.mem_cons_of_mem r hr')
      · cases rest with
        | nil => simp
        | cons r'' rest'' =>
          rw [List.chain'_cons] at hc' ⊢
          exact ⟨hc'.1, hc'.2⟩
    · intro r' hr'
      rcases List.mem_cons.mp hr' with rfl | hr'
      · exact hcur
      · exact mergeInto_spec f rest r
          (hl r (List.mem_cons_self r rest))
          (fun r'' h'' => hl r'' (List.mem_cons_of_mem r h'')) hc' r' hr'

theorem mergeRuns_structure (rs : List Run)
    (hpos : ∀ r ∈ rs, r.start < r.stop)
    (hch : rs.Chain' (fun r₁ r₂ => r₁.stop = r₂.start)) :
    (∀ r ∈ mergeRuns rs, r.start < r.stop) ∧
    (mergeRuns rs).Chain'
      (fun r₁ r₂ => r₁.stop = r₂.start ∧ r₁.depth ≠ r₂.depth) := by
  cases rs with
  | nil => simp [mergeRuns]
  | cons r rest =>
    exact mergeInto_structure rest r (hpos r (List.mem_cons_self r rest))
      (fun r' h' => hpos r' (List.mem_cons_of_mem r h')) hch

theorem mergeRuns_spec (f : ℕ → ℕ) (rs : List Run)
    (hf : ∀ r ∈ rs, ∀ p, r.start ≤ p → p < r.stop → f p = r.depth)
    (hch : rs.Chain' (fun r₁ r₂ => r₁.stop = r₂.start)) :
    ∀ r ∈ mergeRuns rs, ∀ p, r.start ≤ p → p < r.stop → f p = r.depth := by
  cases rs with
  | nil => simp [mergeRuns]
  | cons r rest =>
    exact mergeInto_spec f rest r (hf r (List.mem_cons_self r rest))
      (fun r' h' => hf r' (List.mem_cons_of_mem r h')) hch

theorem filterZeros_subset (iz : Bool) (rs : List Run) :
    ∀ r ∈ filterZeros iz rs, r ∈ rs := by
  intro r hr
  unfold filterZeros at hr
  split_ifs at hr
  · exact hr
  · exact List.mem_of_mem_filter hr

theorem filterZeros_pairwise (iz : Bool) (rs : List Run)
    {R : Run → Run → Prop} (h : rs.Pairwise R) :
    (filterZeros iz rs).Pairwise R := by
  unfold filterZeros
  split_ifs
  · exact h
  · exact h.sublist (List.filter_sublist rs)

/-- Abutting runs of positive length with pairwise-different depths satisfy
the strict run order link by link. -/
theorem chain'_strictRunOrder (rs : List Run)
    (hpos : ∀ r ∈ rs, r.start < r.stop)
    (hch : rs.Chain' (fun r₁ r₂ => r₁.stop = r₂.start ∧ r₁.depth ≠ r₂.depth)) :
    rs.Chain' StrictRunOrder := by
  induction rs with
  | nil => simp
  | cons r rest ih =>
    cases rest with
    | nil => simp
    | cons r' rest' =>
      rw [List.chain'_cons] at hch ⊢
      exact ⟨⟨hpos r (List.mem_cons_self r _),
          hpos r' (List.mem_cons_of_mem r (List.mem_cons_self r' _)),
          le_of_eq hch.1.1, fun _ => hch.1.2⟩,
        ih (fun x hx => hpos x (List.mem_cons_of_mem r hx)) hch.2⟩

/-- Every run emitted by `accumulate` is a non-empty interval. -/
theorem accumulate_pos (spans : List Span) (c : Option ℕ) (iz : Bool) :
    ∀ r ∈ accumulate spans c iz, r.start < r.stop := by
  have hsort := sorted_bpList spans
  have hpos1 := applyCeiling_pos c _ (intervalRuns_pos spans (bpList spans) hsort)
  have hch1 := applyCeiling_chain c _ (intervalRuns_chain spans (bpList spans))
  intro r hr
  exact (mergeRuns_structure _ hpos1 hch1).1 r (filterZeros_subset iz _ r hr)

/-- The runs emitted by `accumulate` are pairwise strictly ordered. -/
theorem accumulate_pairwise (spans : List Span) (c : Option ℕ) (iz : Bool) :
    (accumulate spans c iz).Pairwise StrictRunOrder := by
  have hsort := sorted_bpList spans
  have hpos1 := applyCeiling_pos c _ (intervalRuns_pos spans (bpList spans) hsort)
  have hch1 := applyCeiling_chain c _ (intervalRuns_chain spans (bpList spans))
  obtain ⟨hpos2, hch2⟩ := mergeRuns_structure _ hpos1 hch1
  refine filterZeros_pairwise iz _ ?_
  rw [← List.chain'_iff_pairwise]
  exact chain'_strictRunOrder _ hpos2 hch2

/-- Every run emitted by `accumulate` reports, at every position it covers,
the ceiling-clamped accumulated depth of that position. -/
theorem accumulate_pointwise (spans : List Span) (c : Option ℕ) (iz : Bool) :
    ∀ r ∈ accumulate spans c iz, ∀ p, r.start ≤ p → p < r.stop →
      ceilDepth c (depthAt spans p) = r.depth := by
  have hsort := sorted_bpList spans
  have hdepth := intervalRuns_depth spans (bpList spans) hsort
    (fun x hx => Or.inl hx)
  have hch1 := applyCeiling_chain c _ (intervalRuns_chain spans (bpList spans))
  have hspec : ∀ r ∈ applyCeiling c (intervalRuns spans (bpList spans)),
      ∀ p, r.start ≤ p → p < r.stop → ceilDepth c (depthAt spans p) = r.depth := by
    intro r hr p hp1 hp2
    obtain ⟨r₀, h0, rfl⟩ := applyCeiling_mem c _ r hr
    rw [hdepth r₀ h0 p hp1 hp2]
  have hm := mergeRuns_spec (fun p => ceilDepth c (depthAt spans p)) _ hspec hch1
  intro r hr
  exact hm r (filterZeros_subset iz _ r hr)

/-- C1: for every input span set and every option combination (depth ceiling
present or not, zero-depth runs kept or dropped), the run sequence produced by
the coverage accumulation satisfies the maximal-run invariant on its
chromosome: every run is a non-empty interval, and pairwise the runs are
sorted ascending by start, non-overlapping, and no two abutting runs carry
the same depth value. -/
theorem accumulate_run_invariant (spans : List Span) (ceiling : Option ℕ)
    (includeZero : Bool) :
    (∀ r ∈ accumulate spans ceiling includeZero, r.start < r.stop) ∧
    (accumulate spans ceiling includeZero).Pairwise
      (fun r₁ r₂ => r₁.start < r₂.start ∧ r₁.stop ≤ r₂.start ∧
        (r₁.stop = r₂.start → r₁.depth ≠ r₂.depth)) := by
  refine ⟨accumulate_pos spans ceiling includeZero, ?_⟩
  refine (accumulate_pairwise spans ceiling includeZero).imp ?_
  intro a b hab
  obtain ⟨h1, h2, h3, h4⟩ := hab
  exact ⟨by omega, h3, h4⟩

/-- A position covered by some span is positive-depth, and conversely a
positive depth exhibits a covering span. -/
theorem depthAt_pos (spans : List Span) (p : ℕ) :
    0 < depthAt spans p → ∃ s ∈ spans, s.start ≤ p ∧ p < s.stop := by
  induction spans with
  | nil => intro h; simp [depthAt] at h
  | cons s rest ih =>
    intro h
    by_cases hc : s.start ≤ p ∧ p < s.stop
    · exact ⟨s, List.mem_cons_self s rest, hc⟩
    · have h' : 0 < depthAt rest p := by
        unfold depthAt at h
        rw [List.map_cons, List.sum_cons, if_neg hc, Nat.zero_add] at h
        exact h
      obtain ⟨t, ht, hcov⟩ := ih h'
      exact ⟨t, List.mem_cons_of_mem s ht, hcov⟩

/-- A position bracketed by two members of the sorted breakpoint list is
covered by some elementary run. -/
theorem intervalRuns_cover (spans : List Span) :
    ∀ (M : List ℕ) (p x y : ℕ), M.Sorted (· < ·) → x ∈ M → y ∈ M →
    x ≤ p → p < y →
    ∃ r ∈ intervalRuns spans M, r.start ≤ p ∧ p < r.stop
  | [] => by
    intro p x y _ hx
    cases hx
  | [a] => by
    intro p x y _ hx hy hxp hpy
    have hx' := List.mem_singleton.mp hx
    have hy' := List.mem_singleton.mp hy
    exfalso
    omega
  | a :: b :: rest => by
    intro p x y hs hx hy hxp hpy
    by_cases hpb : p < b
    · have hxa : x = a := by
        rcases List.mem_cons.mp hx with h | hx'
        · exact h
        · have hbx : b ≤ x := by
            rcases List.mem_cons.mp hx' with h' | hx''
            · exact le_of_eq h'.symm
            · exact le_of_lt
                ((List.sorted_cons.mp (List.sorted_cons.mp hs).2).1 x hx'')
          omega
      refine ⟨⟨a, b, depthAt spans a⟩, List.mem_cons_self _ _, ?_, hpb⟩
      show a ≤ p
      omega
    · push_neg at hpb
      have hy' : y ∈ b :: rest := by
        rcases List.mem_cons.mp hy with h | hy'
        · exfalso
          have hab : a < b := (List.sorted_cons.mp hs).1 b (List.mem_cons_self _ _)
          omega
        · exact hy'
      obtain ⟨r, hr, hcov⟩ := intervalRuns_cover spans (b :: rest) p b y
        (List.sorted_cons.mp hs).2 (List.mem_cons_self _ _) hy' hpb hpy
      exact ⟨r, List.mem_cons_of_mem _ hr, hcov⟩

/-- Merging never loses coverage: a position covered by an input run is
covered by some merged run. -/
theorem mergeInto_covers :
    ∀ (l : List Run) (cur : Run) (p : ℕ),
    cur.start < cur.stop → (∀ r ∈ l, r.start < r.stop) →
    (cur :: l).Chain' (fun r₁ r₂ => r₁.stop = r₂.start) →
    (∃ r ∈ cur :: l, r.start ≤ p ∧ p < r.stop) →
    ∃ r ∈ mergeInto cur l, r.start ≤ p ∧ p < r.stop
  | [], cur, p => by
    intro _ _ _ hex
    simpa [mergeInto] using hex
  | r :: rest, cur, p => by
    intro hcur hl hc hex
    rw [List.chain'_cons] at hc
    obtain ⟨hcr, hc'⟩ := hc
    have hrpos := hl r (List.mem_cons_self r rest)
    simp only [mergeInto]
    split_ifs with h
    · apply mergeInto_covers rest ⟨cur.start, r.stop, cur.depth⟩ p
      · show cur.start < r.stop
        omega
      · exact fun r' h' => hl r' (List.mem_cons_of_mem r h')
      · cases rest with
        | nil => simp
        | cons r'' rest'' =>
          rw [List.chain'_cons] at hc' ⊢
          exact ⟨hc'.1, hc'.2⟩
      · obtain ⟨r', hr', hcov⟩ := hex
        rcases List.mem_cons.mp hr' with rfl | hr'
        · refine ⟨⟨r'.start, r.stop, r'.depth⟩, List.mem_cons_self _ _,
            hcov.1, ?_⟩
          show p < r.stop
          have h2 := hcov.2
          omega
        · rcases List.mem_cons.mp hr' with rfl | hr''
          · refine ⟨⟨cur.start, r'.stop, cur.depth⟩, List.mem_cons_self _ _,
              ?_, hcov.2⟩
            show cur.start ≤ p
            have h1 := hcov.1
            omega
          · exact ⟨r', List.mem_cons_of_mem _ hr'', hcov⟩
    · obtain ⟨r', hr', hcov⟩ := hex
      rcases List.mem_cons.mp hr' with rfl | hr'
      · exact ⟨r', List.mem_cons_self _ _, hcov⟩
      · obtain ⟨r'', hr'', hcov''⟩ := mergeInto_covers rest r p hrpos
          (fun x hx => hl x (List.mem_cons_of_mem r hx)) hc' ⟨r', hr', hcov⟩
        exact ⟨r'', List.mem_cons_of_mem _ hr'', hcov''⟩

/-- Every position whose clamped depth is non-zero is covered by some emitted
run, whatever the zero-inclusion mode. -/
theorem accumulate_covers (spans : List Span) (c : Option ℕ) (iz : Bool)
    (p : ℕ) (hnz : ceilDepth c (depthAt spans p) ≠ 0) :
    ∃ r ∈ accumulate spans c iz, r.start ≤ p ∧ p < r.stop := by
  have hd : 0 < depthAt spans p := by
    rcases Nat.eq_zero_or_pos (depthAt spans p) with hz | hp
    · exfalso
      apply hnz
      rw [hz]
      cases c <;> simp [ceilDepth]
    · exact hp
  obtain ⟨s, hsmem, hcov⟩ := depthAt_pos spans p hd
  obtain ⟨r₀, hr₀, hcov₀⟩ := intervalRuns_cover spans (bpList spans) p s.start
    s.stop (sorted_bpList spans) (mem_bpList spans s hsmem).1
    (mem_bpList spans s hsmem).2 hcov.1 hcov.2
  have hr₁ : (⟨r₀.start, r₀.stop, ceilDepth c r₀.depth⟩ : Run)
      ∈ applyCeiling c (intervalRuns spans (bpList spans)) :=
    List.mem_map.mpr ⟨r₀, hr₀, rfl⟩
  have hpos1 := applyCeiling_pos c _
    (intervalRuns_pos spans (bpList spans) (sorted_bpList spans))
  have hch1 := applyCeiling_chain c _ (intervalRuns_chain spans (bpList spans))
  have hspec : ∀ r ∈ applyCeiling c (intervalRuns spans (bpList spans)),
      ∀ q, r.start ≤ q → q < r.stop → ceilDepth c (depthAt spans q) = r.depth := by
    intro r hr q hq1 hq2
    obtain ⟨rr, h0, rfl⟩ := applyCeiling_mem c _ r hr
    rw [intervalRuns_depth spans (bpList spans) (sorted_bpList spans)
      (fun x hx => Or.inl hx) rr h0 q hq1 hq2]
  have hm : ∃ r ∈ mergeRuns (applyCeiling c (intervalRuns spans (bpList spans))),
      r.start ≤ p ∧ p < r.stop := by
    cases hap : applyCeiling c (intervalRuns spans (bpList spans)) with
    | nil =>
      rw [hap] at hr₁
      cases hr₁
    | cons r0 rest0 =>
      rw [hap] at hr₁ hpos1 hch1
      have hcov1 : ∃ r ∈ r0 :: rest0, r.start ≤ p ∧ p < r.stop :=
        ⟨⟨r₀.start, r₀.stop, ceilDepth c r₀.depth⟩, hr₁, hcov₀.1, hcov₀.2⟩
      have hmm := mergeInto_covers rest0 r0 p (hpos1 r0 (List.mem_cons_self _ _))
        (fun x hx => hpos1 x (List.mem_cons_of_mem _ hx)) hch1 hcov1
      exact hmm
  obtain ⟨r, hrm, hcovm⟩ := hm
  have hdep := mergeRuns_spec (fun q => ceilDepth c (depthAt spans q)) _ hspec
    hch1 r hrm p hcovm.1 hcovm.2
  refine ⟨r, ?_, hcovm⟩
  show r ∈ filterZeros iz _
  unfold filterZeros
  split_ifs
  · exact hrm
  · have hne : r.depth ≠ 0 := by
      rw [← hdep]
      exact hnz
    exact List.mem_filter.mpr ⟨hrm, by simpa using hne⟩

/-- C2: for every positive depth ceiling `m`, every run emitted by the
accumulation has depth at most `m`, and every position whose true accumulated
depth is at least `m` lies inside an emitted run whose reported depth is
exactly `m`. -/
theorem accumulate_ceiling_clamps (spans : List Span) (m : ℕ)
    (includeZero : Bool) (hm : 0 < m) :
    (∀ r ∈ accumulate spans (some m) includeZero, r.depth ≤ m) ∧
    (∀ p, m ≤ depthAt spans p →
      ∃ r ∈ accumulate spans (some m) includeZero,
        r.start ≤ p ∧ p < r.stop ∧ r.depth = m) := by
  constructor
  · intro r hr
    have hpos := accumulate_pos spans (some m) includeZero r hr
    have := accumulate_pointwise spans (some m) includeZero r hr r.start
      (le_refl _) hpos
    simp only [ceilDepth] at this
    omega
  · intro p hp
    have hnz : ceilDepth (some m) (depthAt spans p) ≠ 0 := by
      simp only [ceilDepth]
      omega
    obtain ⟨r, hr, hcov⟩ := accumulate_covers spans (some m) includeZero p hnz
    refine ⟨r, hr, hcov.1, hcov.2, ?_⟩
    have := accumulate_pointwise spans (some m) includeZero r hr p hcov.1 hcov.2
    simp only [ceilDepth] at this
    omega

/-- Evaluation of C2 at a concrete input: a single span of weight 3 clamped
by the ceiling 2 yields the single run `(0, 2, 2)`, which covers the
saturated position 0 at exactly the ceiling depth. -/
theorem accumulate_ceiling_clamps_witness :
    (Run.mk 0 2 2).depth ≤ 2 ∧
    ∃ r ∈ accumulate [Span.mk 0 2 3] (some 2) false,
      r.start ≤ 0 ∧ 0 < r.stop ∧ r.depth = 2 :=
  ⟨(accumulate_ceiling_clamps [⟨0, 2, 3⟩] 2 false (by decide)).1 ⟨0, 2, 2⟩
      (by decide),
   (accumulate_ceiling_clamps [⟨0, 2, 3⟩] 2 false (by decide)).2 0 (by decide)⟩

end Rnabam2cov
